import Mathlib

/-!
Verification of the session/capture data model, the coordinate-transform
logic, the annotation compositor, the session store and the hotkey
validator of the screen-capture tool (src/screen_capture_tool.py).

The Python code is shallowly embedded: dictionaries become structures,
in-place list mutation becomes pure list functions, the file system and
the message boxes become explicit values (a file-existence map, a
remove-failure map, a reported-error flag), and float arithmetic on the
canvas transform is carried out exactly over the rationals.
-/

/-- One capture record of a session: the dictionary appended in
`capture_screen` (`{"id": ..., "time": ..., "description": ..., "image_path": ...}`). -/
structure Capture where
  id : Nat
  time : String
  description : String
  image_path : String
deriving Repr, DecidableEq

/-- The renumbering loop of the delete branch of `handle_capture_operation`:
`for i, cap in enumerate(session["captures"]): cap["id"] = i + 1`,
started at `n` (the code starts at 1). -/
def renumberFrom (n : Nat) : List Capture → List Capture
  | [] => []
  | c :: cs => { c with id := n } :: renumberFrom (n + 1) cs

def renumberCaptures (caps : List Capture) : List Capture :=
  renumberFrom 1 caps

/-- `capture_screen` appends a capture whose id is `len(captures) + 1` and whose
description defaults to the generated placeholder when empty. -/
def capture_screen_append (caps : List Capture) (time desc path : String) : List Capture :=
  let capture_count := caps.length + 1
  caps ++ [{ id := capture_count
             time := time
             description := if desc = "" then "第" ++ toString capture_count ++ "次记录" else desc
             image_path := path }]

/-- The file system as seen by the delete branch: whether `os.path.exists`
holds for a path, and whether `os.remove` raises for a path. -/
structure FS where
  fileExists : String → Bool
  removeFails : String → Bool

/-- The lookup loop of `handle_capture_operation`: the first capture whose
`id` equals the clicked id, together with its index. -/
def findCapture : List Capture → Nat → Option (Nat × Capture)
  | [], _ => none
  | c :: cs, cid =>
      if c.id = cid then some (0, c)
      else (findCapture cs cid).map (fun p => (p.1 + 1, p.2))

/-- Result of the delete branch of `handle_capture_operation`: the captures
list afterwards, whether `save_session` was reached, and whether an error
dialog was shown. -/
structure DeleteResult where
  captures : List Capture
  saved : Bool
  errorReported : Bool
deriving Repr, DecidableEq

/-- The delete branch of `handle_capture_operation` (user already confirmed):
if the backing file exists and `os.remove` raises, an error is reported and
the function returns with nothing changed; otherwise the record is removed,
the remaining captures are renumbered and the session is saved. -/
def handle_capture_delete (fs : FS) (caps : List Capture) (cid : Nat) : DeleteResult :=
  match findCapture caps cid with
  | none => ⟨caps, false, false⟩
  | some (idx, target) =>
      if fs.fileExists target.image_path && fs.removeFails target.image_path then
        ⟨caps, false, true⟩
      else
        ⟨renumberCaptures (caps.eraseIdx idx), true, false⟩

/-- A structural mutation of the captures list: an append from
`capture_screen` or a delete from `handle_capture_operation` (the latter
carrying the file-system state that decides whether it aborts). -/
inductive CaptureOp
  | append (time desc path : String)
  | delete (fs : FS) (cid : Nat)

def applyCaptureOp (caps : List Capture) : CaptureOp → List Capture
  | .append t d p => capture_screen_append caps t d p
  | .delete fs cid => (handle_capture_delete fs caps cid).captures

def applyCaptureOps (ops : List CaptureOp) : List Capture :=
  ops.foldl applyCaptureOp []

-- Helper lemmas for id contiguity

theorem renumberFrom_map_id (cs : List Capture) :
    ∀ n, (renumberFrom n cs).map Capture.id = List.range' n cs.length := by
  induction cs with
  | nil => intro n; rfl
  | cons c cs ih =>
      intro n
      simp only [renumberFrom, List.map_cons, List.length_cons, List.range'_succ, ih]

theorem renumberFrom_length (cs : List Capture) :
    ∀ n, (renumberFrom n cs).length = cs.length := by
  induction cs with
  | nil => intro n; rfl
  | cons c cs ih => intro n; simp [renumberFrom, ih]

/-- Contiguity of a captures list, phrased as: the ids in list order are
exactly `n, n+1, ..., n+len-1`. -/
def idsFrom (n : Nat) (caps : List Capture) : Prop :=
  caps.map Capture.id = List.range' n caps.length

theorem range'_snoc (n : Nat) :
    ∀ s : Nat, List.range' s (n + 1) = List.range' s n ++ [s + n] := by
  induction n with
  | zero => intro s; simp [List.range'_succ]
  | succ n ih =>
      intro s
      rw [List.range'_succ, ih (s + 1), List.range'_succ]
      simp [Nat.add_assoc, Nat.add_comm, Nat.add_left_comm]

theorem idsFrom_append_one (caps : List Capture) (c : Capture) (n : Nat)
    (h : idsFrom n caps) (hc : c.id = n + caps.length) : idsFrom n (caps ++ [c]) := by
  unfold idsFrom at h ⊢
  rw [List.map_append, h, List.length_append]
  simp only [List.map_cons, List.map_nil, List.length_cons, List.length_nil, hc]
  rw [range'_snoc]

theorem applyCaptureOp_preserves (caps : List Capture) (op : CaptureOp)
    (h : idsFrom 1 caps) : idsFrom 1 (applyCaptureOp caps op) := by
  cases op with
  | append t d p =>
      simp only [applyCaptureOp, capture_screen_append]
      refine idsFrom_append_one caps _ 1 h ?_
      simp [Nat.add_comm]
  | delete fs cid =>
      simp only [applyCaptureOp, handle_capture_delete]
      cases hf : findCapture caps cid with
      | none => exact h
      | some p =>
          obtain ⟨idx, target⟩ := p
          by_cases hb : fs.fileExists target.image_path && fs.removeFails target.image_path
          · simpa [hb] using h
          · simp only [hb, if_false]
            show idsFrom 1 (renumberCaptures (caps.eraseIdx idx))
            unfold idsFrom renumberCaptures
            rw [renumberFrom_map_id, renumberFrom_length]

/-- C3 — Capture id contiguity: after every finite sequence of
append/delete operations on a session's captures (appends assigning
`len+1`, deletes renumbering the survivors), the id fields are exactly
`1..len(captures)` in list order, with no gaps.  Quantifying over all
operation sequences settles the property after each operation, since every
intermediate state is reached by a prefix. -/
theorem capture_id_contiguity (ops : List CaptureOp) :
    (applyCaptureOps ops).map Capture.id =
      List.range' 1 (applyCaptureOps ops).length := by
  show idsFrom 1 (applyCaptureOps ops)
  unfold applyCaptureOps
  generalize hstart : ([] : List Capture) = start
  have hinv : idsFrom 1 start := by subst hstart; rfl
  clear hstart
  induction ops generalizing start with
  | nil => exact hinv
  | cons op ops ih =>
      exact ih (applyCaptureOp start op) (applyCaptureOp_preserves start op hinv)

/-- C7 — Capture-deletion atomicity: when the backing image file exists and
removing it fails, the whole deletion is aborted — the captures list is
unchanged (no renumbering), the session is not re-saved, and the failure
is reported. -/
theorem capture_delete_atomic (fs : FS) (caps : List Capture) (cid idx : Nat)
    (target : Capture)
    (hfind : findCapture caps cid = some (idx, target))
    (hex : fs.fileExists target.image_path = true)
    (hfail : fs.removeFails target.image_path = true) :
    handle_capture_delete fs caps cid = ⟨caps, false, true⟩ := by
  simp [handle_capture_delete, hfind, hex, hfail]

/-- Witness for C7 at a concrete input. -/
theorem capture_delete_atomic_witness :
    handle_capture_delete ⟨fun _ => true, fun _ => true⟩ [⟨1, "t1", "d1", "p1"⟩] 1 =
      ⟨[⟨1, "t1", "d1", "p1"⟩], false, true⟩ :=
  capture_delete_atomic ⟨fun _ => true, fun _ => true⟩ [⟨1, "t1", "d1", "p1"⟩] 1 0
    ⟨1, "t1", "d1", "p1"⟩ rfl rfl rfl

/-- C10 — a missing image file does not block capture deletion: when the
backing image file no longer exists, the deletion proceeds — the record at
the found index is removed, the remaining captures are renumbered
contiguously, and the session is saved. -/
theorem capture_delete_missing_file (fs : FS) (caps : List Capture) (cid idx : Nat)
    (target : Capture)
    (hfind : findCapture caps cid = some (idx, target))
    (hmiss : fs.fileExists target.image_path = false) :
    handle_capture_delete fs caps cid =
        ⟨renumberCaptures (caps.eraseIdx idx), true, false⟩ ∧
      (handle_capture_delete fs caps cid).captures.map Capture.id =
        List.range' 1 (handle_capture_delete fs caps cid).captures.length := by
  have heq : handle_capture_delete fs caps cid =
      ⟨renumberCaptures (caps.eraseIdx idx), true, false⟩ := by
    simp [handle_capture_delete, hfind, hmiss]
  refine ⟨heq, ?_⟩
  rw [heq]
  show (renumberCaptures (caps.eraseIdx idx)).map Capture.id =
    List.range' 1 (renumberCaptures (caps.eraseIdx idx)).length
  unfold renumberCaptures
  rw [renumberFrom_map_id, renumberFrom_length]

/-- Witness for C10 at a concrete input: two captures, the first one's file
is gone; deleting it removes the record, renumbers and saves. -/
theorem capture_delete_missing_file_witness :
    handle_capture_delete ⟨fun _ => false, fun _ => false⟩
        [⟨1, "t1", "d1", "p1"⟩, ⟨2, "t2", "d2", "p2"⟩] 1 =
      ⟨[⟨1, "t2", "d2", "p2"⟩], true, false⟩ :=
  (capture_delete_missing_file ⟨fun _ => false, fun _ => false⟩
    [⟨1, "t1", "d1", "p1"⟩, ⟨2, "t2", "d2", "p2"⟩] 1 0 ⟨1, "t1", "d1", "p1"⟩ rfl rfl).1

/-! ### Coordinate transform of the capture preview (`on_mousewheel`)

The canvas carries `scale`, `x_pos`, `y_pos`; the float arithmetic of the
Python code is embedded exactly over the rationals. -/

/-- The zoom state of the preview canvas: current scale and the canvas
coordinates of the image's top-left corner. -/
structure CanvasView where
  scale : ℚ
  x_pos : ℚ
  y_pos : ℚ

def MIN_SCALE : ℚ := 1 / 10
def MAX_SCALE : ℚ := 5
def ZOOM_FACTOR : ℚ := 11 / 10

/-- One discrete zoom event on the scale:
`new_scale = min(scale * 1.1, 5.0)` on zoom-in,
`new_scale = max(scale / 1.1, 0.1)` on zoom-out. -/
def zoomStepScale (scale : ℚ) (zoomIn : Bool) : ℚ :=
  if zoomIn then min (scale * ZOOM_FACTOR) MAX_SCALE
  else max (scale / ZOOM_FACTOR) MIN_SCALE

/-- `image = (canvas - offset) / scale`: canvas point to image point, as in
`orig_rel_x = rel_x / canvas.scale` after `rel_x = mouse_x - canvas.x_pos`. -/
def toImage (v : CanvasView) (p : ℚ × ℚ) : ℚ × ℚ :=
  ((p.1 - v.x_pos) / v.scale, (p.2 - v.y_pos) / v.scale)

/-- The mouse cursor lies inside the displayed (resized) image, whose size
is `dispW × dispH`: `0 <= rel_x < width and 0 <= rel_y < height`. -/
def insideDisplayed (v : CanvasView) (dispW dispH : ℚ) (mouse : ℚ × ℚ) : Prop :=
  0 ≤ mouse.1 - v.x_pos ∧ mouse.1 - v.x_pos < dispW ∧
  0 ≤ mouse.2 - v.y_pos ∧ mouse.2 - v.y_pos < dispH

instance (v : CanvasView) (dispW dispH : ℚ) (mouse : ℚ × ℚ) :
    Decidable (insideDisplayed v dispW dispH mouse) := by
  unfold insideDisplayed; infer_instance

/-- The state update of `on_mousewheel` when the cursor is inside the
displayed image: clamp-scale, then
`new_x_pos = mouse_x - orig_rel_x * new_scale` (same for y). Outside the
image nothing changes. -/
def on_mousewheel (v : CanvasView) (dispW dispH : ℚ) (mouse : ℚ × ℚ)
    (zoomIn : Bool) : CanvasView :=
  if insideDisplayed v dispW dispH mouse then
    let new_scale := zoomStepScale v.scale zoomIn
    let orig_rel_x := (mouse.1 - v.x_pos) / v.scale
    let orig_rel_y := (mouse.2 - v.y_pos) / v.scale
    { scale := new_scale
      x_pos := mouse.1 - orig_rel_x * new_scale
      y_pos := mouse.2 - orig_rel_y * new_scale }
  else v

theorem zoomStepScale_pos (s : ℚ) (b : Bool) (hs : 0 < s) :
    0 < zoomStepScale s b := by
  unfold zoomStepScale ZOOM_FACTOR MAX_SCALE MIN_SCALE
  cases b with
  | false => simp only [if_false, Bool.false_eq_true]; positivity
  | true =>
      simp only [if_true]
      have h1 : 0 < s * (11 / 10 : ℚ) := by positivity
      have h2 : (0 : ℚ) < 5 := by norm_num
      exact lt_min h1 h2

theorem zoomStepScale_mem (s : ℚ) (b : Bool)
    (h1 : MIN_SCALE ≤ s) (h2 : s ≤ MAX_SCALE) :
    MIN_SCALE ≤ zoomStepScale s b ∧ zoomStepScale s b ≤ MAX_SCALE := by
  simp only [MIN_SCALE, MAX_SCALE] at h1 h2
  simp only [zoomStepScale, ZOOM_FACTOR, MAX_SCALE, MIN_SCALE]
  cases b with
  | true =>
      simp only [if_true]
      constructor
      · refine le_min ?_ (by norm_num)
        nlinarith
      · exact min_le_right _ _
  | false =>
      simp only [if_false, Bool.false_eq_true]
      constructor
      · exact le_max_right _ _
      · refine max_le ?_ (by norm_num)
        rw [div_le_iff (by norm_num : (0:ℚ) < 11 / 10)]
        nlinarith

/-- C4 — Zoom anchoring: for a canvas point inside the displayed image, a
scale in `[0.1, 5.0]` and one wheel-zoom step applied at that point, the
image-space point computed from the cursor under the post-zoom scale and
offset equals the one computed under the pre-zoom scale and offset,
exactly in rational arithmetic: the pixel under the cursor does not move. -/
theorem zoom_anchoring (v : CanvasView) (dispW dispH : ℚ) (mouse : ℚ × ℚ)
    (zoomIn : Bool)
    (hlo : MIN_SCALE ≤ v.scale) (hhi : v.scale ≤ MAX_SCALE)
    (hin : insideDisplayed v dispW dispH mouse) :
    toImage (on_mousewheel v dispW dispH mouse zoomIn) mouse = toImage v mouse := by
  have hs : 0 < v.scale := lt_of_lt_of_le (by norm_num [MIN_SCALE]) hlo
  have hns : 0 < zoomStepScale v.scale zoomIn := zoomStepScale_pos _ _ hs
  unfold on_mousewheel
  rw [if_pos hin]
  unfold toImage
  simp only [Prod.mk.injEq]
  have hs' : v.scale ≠ 0 := ne_of_gt hs
  have hns' : zoomStepScale v.scale zoomIn ≠ 0 := ne_of_gt hns
  constructor <;> (field_simp; ring)

/-- Witness for C4 at a concrete input: unit scale at the origin, cursor at
`(10, 20)` inside a `100 × 100` display, one zoom-in step. -/
theorem zoom_anchoring_witness :
    toImage (on_mousewheel ⟨1, 0, 0⟩ 100 100 (10, 20) true) (10, 20) =
      toImage ⟨1, 0, 0⟩ (10, 20) :=
  zoom_anchoring ⟨1, 0, 0⟩ 100 100 (10, 20) true (by norm_num [MIN_SCALE])
    (by norm_num [MAX_SCALE]) (by constructor <;> norm_num [insideDisplayed])

/-- The scale after a finite sequence of discrete zoom events
(`true` = zoom-in, `false` = zoom-out). -/
def scaleAfterEvents (s : ℚ) (events : List Bool) : ℚ :=
  events.foldl zoomStepScale s

/-- C5 — Scale clamping: starting from any scale in `[0.1, 5.0]`, after any
finite sequence of zoom events the scale remains in `[0.1, 5.0]` — each
zoom-in sets it to `min(scale * 1.1, 5.0)` and each zoom-out to
`max(scale / 1.1, 0.1)`, saturating at the bounds.  Quantifying over all
event sequences settles the bound after each event. -/
theorem scale_clamping (s : ℚ) (events : List Bool)
    (h1 : MIN_SCALE ≤ s) (h2 : s ≤ MAX_SCALE) :
    MIN_SCALE ≤ scaleAfterEvents s events ∧ scaleAfterEvents s events ≤ MAX_SCALE := by
  unfold scaleAfterEvents
  induction events generalizing s with
  | nil => exact ⟨h1, h2⟩
  | cons b events ih =>
      obtain ⟨g1, g2⟩ := zoomStepScale_mem s b h1 h2
      exact ih (zoomStepScale s b) g1 g2

/-- Witness for C5 at a concrete input: starting scale `1`, three zoom-ins
followed by two zoom-outs. -/
theorem scale_clamping_witness :
    MIN_SCALE ≤ scaleAfterEvents 1 [true, true, true, false, false] ∧
      scaleAfterEvents 1 [true, true, true, false, false] ≤ MAX_SCALE :=
  scale_clamping 1 [true, true, true, false, false]
    (by norm_num [MIN_SCALE]) (by norm_num [MAX_SCALE])

/-! ### Stroke clipping in `on_confirm` (annotation compositing under a crop) -/

/-- The crop region `selected_region = (orig_x1, orig_y1, orig_x2, orig_y2)`,
in image-space integer coordinates. -/
structure CropRegion where
  x1 : Int
  y1 : Int
  x2 : Int
  y2 : Int
deriving Repr, DecidableEq

/-- The membership test of `on_confirm`:
`orig_x1 <= px <= orig_x2 and orig_y1 <= py <= orig_y2`. -/
def inRegion (r : CropRegion) (p : Int × Int) : Bool :=
  decide (r.x1 ≤ p.1) && decide (p.1 ≤ r.x2) && decide (r.y1 ≤ p.2) && decide (p.2 ≤ r.y2)

/-- The point loop of `on_confirm` under a crop: keep the points inside the
region, translated to crop-relative coordinates `(px - orig_x1, py - orig_y1)`. -/
def clipPathToRegion (r : CropRegion) : List (Int × Int) → List (Int × Int)
  | [] => []
  | p :: ps =>
      if inRegion r p then (p.1 - r.x1, p.2 - r.y1) :: clipPathToRegion r ps
      else clipPathToRegion r ps

/-- The polyline segments drawn for a point list: consecutive pairs, drawn
only when more than one point remains. -/
def strokeSegments (pts : List (Int × Int)) : List ((Int × Int) × (Int × Int)) :=
  if pts.length > 1 then pts.zip pts.tail else []

/-- The segments `on_confirm` draws for one stroke path under a crop region:
the path is considered only when it has more than one point, its points are
clipped to the region, and segments are drawn between consecutive surviving
points only when more than one survives. -/
def croppedStrokeSegments (r : CropRegion) (path : List (Int × Int)) :
    List ((Int × Int) × (Int × Int)) :=
  if path.length > 1 then strokeSegments (clipPathToRegion r path) else []

/-- A crop-relative point within the closed bounds of the cropped output
(`width = x2 - x1`, `height = y2 - y1`). -/
def inCropBounds (r : CropRegion) (q : Int × Int) : Prop :=
  0 ≤ q.1 ∧ q.1 ≤ r.x2 - r.x1 ∧ 0 ≤ q.2 ∧ q.2 ≤ r.y2 - r.y1

theorem clipPathToRegion_bounds (r : CropRegion) (path : List (Int × Int))
    (q : Int × Int) (hq : q ∈ clipPathToRegion r path) : inCropBounds r q := by
  induction path with
  | nil => cases hq
  | cons p ps ih =>
      unfold clipPathToRegion at hq
      by_cases hin : inRegion r p = true
      · rw [if_pos hin] at hq
        rcases List.mem_cons.mp hq with hq | hq
        · subst hq
          simp only [inRegion, Bool.and_eq_true, decide_eq_true_eq] at hin
          exact ⟨by omega, by omega, by omega, by omega⟩
        · exact ih hq
      · rw [if_neg hin] at hq
        exact ih hq

theorem clipPathToRegion_all_outside (r : CropRegion) (path : List (Int × Int))
    (h : ∀ p ∈ path, inRegion r p = false) : clipPathToRegion r path = [] := by
  induction path with
  | nil => rfl
  | cons p ps ih =>
      unfold clipPathToRegion
      rw [if_neg (by simp [h p (List.mem_cons_self p ps)]), ih]
      intro a ha
      exact h a (List.mem_cons_of_mem p ha)

/-- C6 — Stroke clipping under crop: the compositing of `on_confirm` keeps,
for each stroke path, only the points inside the crop region
`(x1, y1, x2, y2)`, each translated by `(-x1, -y1)`; consequently both
endpoints of every drawn line segment lie within the closed bounds
`[0, x2 - x1] x [0, y2 - y1]` of the cropped output, and a stroke whose
points all lie outside the region contributes no segment at all (without
any error, the clipped point list being empty). -/
theorem stroke_clipping :
    (∀ (r : CropRegion) (path : List (Int × Int)) (seg : (Int × Int) × (Int × Int)),
        seg ∈ croppedStrokeSegments r path → inCropBounds r seg.1 ∧ inCropBounds r seg.2) ∧
      (∀ (r : CropRegion) (path : List (Int × Int)),
        (∀ p ∈ path, inRegion r p = false) → croppedStrokeSegments r path = []) := by
  constructor
  · intro r path seg hseg
    unfold croppedStrokeSegments strokeSegments at hseg
    by_cases h1 : path.length > 1
    · rw [if_pos h1] at hseg
      by_cases h2 : (clipPathToRegion r path).length > 1
      · rw [if_pos h2] at hseg
        obtain ⟨ha, hb⟩ := List.of_mem_zip hseg
        exact ⟨clipPathToRegion_bounds r path _ ha,
          clipPathToRegion_bounds r path _ (List.mem_of_mem_tail hb)⟩
      · rw [if_neg h2] at hseg
        cases hseg
    · rw [if_neg h1] at hseg
      cases hseg
  · intro r path h
    unfold croppedStrokeSegments
    rw [clipPathToRegion_all_outside r path h]
    simp [strokeSegments]

/-- Witness for C6 at a concrete input: region `(2, 2, 10, 10)`; a path
crossing the boundary yields only in-bounds segment endpoints, and a path
entirely outside yields no segments. -/
theorem stroke_clipping_witness :
    (inCropBounds ⟨2, 2, 10, 10⟩ (1, 1) ∧ inCropBounds ⟨2, 2, 10, 10⟩ (3, 4)) ∧
      croppedStrokeSegments ⟨2, 2, 10, 10⟩ [(20, 20), (30, 30)] = [] :=
  ⟨stroke_clipping.1 ⟨2, 2, 10, 10⟩ [(0, 0), (3, 3), (5, 6), (11, 11)] ((1, 1), (3, 4))
      (by decide),
    stroke_clipping.2 ⟨2, 2, 10, 10⟩ [(20, 20), (30, 30)] (by decide)⟩


/-! ### Hotkey validation (`confirm_hotkey` in `set_hotkey`)

Candidate strings are embedded as their character lists (`List Char`) so
that the validator is structurally recursive and executable by `decide`.
Python's `str.strip` is modelled with `Char.isWhitespace`, `str.lower`
with `Char.toLower`, and `str.isalpha` / `str.isdigit` with the ASCII
`Char.isAlpha` / `Char.isDigit`; all inputs of interest are ASCII. -/

/-- `str.strip()`: drop whitespace from both ends. -/
def trimChars (s : List Char) : List Char :=
  ((s.dropWhile Char.isWhitespace).reverse.dropWhile Char.isWhitespace).reverse

/-- `str.lower()`. -/
def lowerChars (s : List Char) : List Char :=
  s.map Char.toLower

/-- `str.split('+')`: split at every `'+'`, keeping empty components
(so `"".split('+') == [""]` and `"a+".split('+') == ["a", ""]`). -/
def splitOnPlus : List Char → List (List Char)
  | [] => [[]]
  | c :: cs =>
      let rest := splitOnPlus cs
      if c = '+' then [] :: rest
      else
        match rest with
        | [] => [[c]]
        | r :: rs => (c :: r) :: rs

def hotkeyModifiers : List (List Char) :=
  ["ctrl".toList, "alt".toList, "shift".toList]

/-- `part.startswith('f') and part[1:].isdigit()` (`"".isdigit()` is false). -/
def isFKeyPart : List Char → Bool
  | 'f' :: rest => !rest.isEmpty && rest.all Char.isDigit
  | _ => false

/-- Acceptance of one `+`-separated component: the negation of the rejection
test of `confirm_hotkey` — the stripped part is empty, or a modifier, or a
single letter, or a single digit, or `f` followed by digits. -/
def isValidHotkeyPart (part : List Char) : Bool :=
  let p := trimChars part
  p.isEmpty || hotkeyModifiers.contains p ||
    (p.length == 1 && p.all Char.isAlpha) || (p.length == 1 && p.all Char.isDigit) ||
    isFKeyPart p

/-- The validation loop of `confirm_hotkey`: the first invalid part causes
an error dialog and an early return (= rejection); the combination is
accepted when every part passes. -/
def checkHotkeyParts : List (List Char) → Bool
  | [] => true
  | part :: rest => if isValidHotkeyPart part then checkHotkeyParts rest else false

/-- `confirm_hotkey`: the candidate is stripped and lowercased; an empty
result is rejected; otherwise the `+`-split parts are checked in turn. -/
def confirm_hotkey_accepts (raw : List Char) : Bool :=
  let h := lowerChars (trimChars raw)
  if h.isEmpty then false else checkHotkeyParts (splitOnPlus h)

def specFKeys : List (List Char) :=
  ["f1".toList, "f2".toList, "f3".toList, "f4".toList, "f5".toList, "f6".toList,
    "f7".toList, "f8".toList, "f9".toList, "f10".toList, "f11".toList, "f12".toList]

/-- Modelled from the claim's words: a base key is a single letter, a single
digit, or a function-key name `f1`–`f12`. -/
def specBaseKey (p : List Char) : Bool :=
  (p.length == 1 && p.all Char.isAlpha) || (p.length == 1 && p.all Char.isDigit) ||
    specFKeys.contains p

/-- Modelled from the claim's words: a `+`-joined sequence of modifier names
drawn from `{ctrl, alt, shift}` together with exactly one base key. -/
def claimedHotkeyValid (s : List Char) : Bool :=
  let parts := splitOnPlus s
  parts.all (fun p => hotkeyModifiers.contains p || specBaseKey p) &&
    (parts.filter specBaseKey).length == 1

/-- Counterexample for C9: the validator accepts `"ctrl+alt"`, which has no
base key at all, and accepts `"f13"`, which is not among `f1`–`f12`; the
claimed acceptance condition holds for neither input. -/
theorem hotkey_validation_counterexample :
    confirm_hotkey_accepts "ctrl+alt".toList = true ∧
      claimedHotkeyValid "ctrl+alt".toList = false ∧
      confirm_hotkey_accepts "f13".toList = true ∧
      claimedHotkeyValid "f13".toList = false := by
  refine ⟨?_, ?_, ?_, ?_⟩ <;> decide

theorem checkHotkeyParts_iff (l : List (List Char)) :
    checkHotkeyParts l = true ↔ ∀ p ∈ l, isValidHotkeyPart p = true := by
  induction l with
  | nil => simp [checkHotkeyParts]
  | cons part rest ih =>
      unfold checkHotkeyParts
      by_cases hp : isValidHotkeyPart part = true
      · simp [hp, ih]
      · simp [hp]

/-- C9 amended — Hotkey validation as implemented: the validator accepts a
candidate exactly when, after stripping and lowercasing, it is non-empty and
every `+`-separated part (after stripping) is empty, a modifier from
`{ctrl, alt, shift}`, a single letter, a single digit, or `f` followed by
one or more digits; it does not require exactly one base key — any number
of base keys (including none) passes — and f-keys are not limited to
`f1`–`f12`. -/
theorem hotkey_validator_characterization (s : List Char) :
    confirm_hotkey_accepts s = true ↔
      (¬ (lowerChars (trimChars s)).isEmpty ∧
        ∀ p ∈ splitOnPlus (lowerChars (trimChars s)), isValidHotkeyPart p = true) := by
  unfold confirm_hotkey_accepts
  by_cases he : (lowerChars (trimChars s)).isEmpty
  · simp [he]
  · rw [if_neg (by simpa using he), checkHotkeyParts_iff]
    simp [he]

/-- Witness for the amended C9 at a concrete input: a fully valid
combination is accepted via the characterization. -/
theorem hotkey_validator_characterization_witness :
    confirm_hotkey_accepts "ctrl+alt+a".toList = true :=
  (hotkey_validator_characterization "ctrl+alt+a".toList).mpr ⟨by decide, by decide⟩

/-! ### Session store: records, persistence and the history loader -/

/-- The session dictionary
`{"id", "name", "description", "start_time", "end_time", "duration", "captures"}`. -/
structure Session where
  id : String
  name : String
  description : String
  start_time : String
  end_time : String
  duration : Nat
  captures : List Capture
deriving Repr, DecidableEq

/-- One step of the stable descending sort on `start_time`: a later-arriving
element passes every element with a greater-or-equal key and stops before the
first element with a strictly smaller key. -/
def insertByStartDesc (s : Session) : List Session → List Session
  | [] => [s]
  | b :: bs =>
      if b.start_time < s.start_time then s :: b :: bs
      else b :: insertByStartDesc s bs

/-- `self.history_sessions.sort(key=lambda x: x["start_time"], reverse=True)`:
a stable sort, descending on `start_time` (Python's sort is stable; any
stable sort computes the same list, here insertion sort). -/
def sortByStartTimeDesc (l : List Session) : List Session :=
  l.foldl (fun acc s => insertByStartDesc s acc) []

/-- A session dictionary exactly as `json.load` returns it: `json.load`
validates only JSON syntax, so any of the required fields may be absent
from a successfully parsed record.  `none` in a field stands for a missing
key. -/
structure JsonRecord where
  id : Option String
  name : Option String
  description : Option String
  start_time : Option String
  end_time : Option String
  duration : Option Nat
  captures : Option (List Capture)
deriving Repr, DecidableEq

/-- The content of one `.json` file of the sessions directory:
`invalid` when `json.load` raises on it (invalid JSON), otherwise the
parsed record, which may be missing required fields. -/
inductive FileJson
  | invalid
  | record (r : JsonRecord)
deriving Repr, DecidableEq

def FileJson.parsedRecord : FileJson → Option JsonRecord
  | .invalid => none
  | .record r => some r

/-- Python's `<` on strings: code-point lexicographic comparison, written
over the character lists so that it is executable by `decide`. -/
def charListLt : List Char → List Char → Bool
  | [], [] => false
  | [], _ :: _ => true
  | _ :: _, [] => false
  | a :: as, b :: bs => if a < b then true else if b < a then false else charListLt as bs

/-- The sort key `lambda x: x["start_time"]`, as a comparison value (only
ever used on records whose `start_time` is present). -/
def startKey (r : JsonRecord) : List Char :=
  (r.start_time.getD "").data

/-- One step of the stable descending sort on the `start_time` key: a
later-arriving element passes every element with a greater-or-equal key and
stops before the first element with a strictly smaller key. -/
def insertJsonByStartDesc (s : JsonRecord) : List JsonRecord → List JsonRecord
  | [] => [s]
  | b :: bs =>
      if charListLt (startKey b) (startKey s) then s :: b :: bs
      else b :: insertJsonByStartDesc s bs

/-- `list.sort(key=..., reverse=True)` with every key present: a stable
descending sort (Python's sort is stable; any stable sort computes the same
list, here insertion sort). -/
def sortJsonByStartDesc (l : List JsonRecord) : List JsonRecord :=
  l.foldl (fun acc s => insertJsonByStartDesc s acc) []

/-- `self.history_sessions.sort(key=lambda x: x["start_time"], reverse=True)`:
Python's sort computes the key of every element before any reordering, so a
record without a `"start_time"` key raises `KeyError` during that key
pass — the `except` handler shows the diagnostic and the list keeps its
elements in their original order (CPython restores the items when a key
computation fails).  With every key present the sort succeeds. -/
def sortHistoryStep (recs : List JsonRecord) : List JsonRecord × Bool :=
  if recs.all (fun r => r.start_time.isSome) then (sortJsonByStartDesc recs, false)
  else (recs, true)

/-- The body of the `try` of `load_history_sessions`: the files are the
contents of the `.json` entries of the sessions directory in listing order.
`json.load` raising jumps out of the loop (and past the sort) to the
`except` handler, which shows a diagnostic; the records accumulated so far
are kept.  A record that parses is appended with no field validation at
all.  When the loop completes, the sort runs (`sortHistoryStep`). -/
def loadLoop : List FileJson → List JsonRecord → List JsonRecord × Bool
  | [], acc => sortHistoryStep acc
  | f :: fs, acc =>
      match f with
      | .record r => loadLoop fs (acc ++ [r])
      | .invalid => (acc, true)

/-- `load_history_sessions`: returns the resulting `history_sessions` list
and whether the error dialog was shown. -/
def load_history_sessions (files : List FileJson) : List JsonRecord × Bool :=
  loadLoop files []

def demoJson1 : JsonRecord :=
  ⟨some "id1", some "n1", some "", some "2025-01-01 10:00:00",
    some "2025-01-01 10:05:00", some 300, some []⟩

def demoJson2 : JsonRecord :=
  ⟨some "id2", some "n2", some "", some "2025-01-02 09:00:00",
    some "2025-01-02 09:01:00", some 60, some []⟩

/-- A record that is valid JSON but malformed in the claim's sense: the
required `captures` field is missing (its `start_time` is present). -/
def demoNoCaptures : JsonRecord :=
  ⟨some "idX", some "nX", some "", some "2025-01-03 08:00:00",
    some "2025-01-03 08:01:00", some 10, none⟩

/-- A record that is valid JSON but has no `start_time` field. -/
def demoNoStart : JsonRecord :=
  ⟨some "idY", some "nY", some "", none, some "", some 0, some []⟩

/-- Counterexample for C2, refuting the claim on both malformed categories:
(1) with a well-formed record, an invalid-JSON one, then another well-formed
one on disk, the loader returns only the first record — the well-formed
record after the malformed one is dropped; (2) a valid-JSON record missing
the required `captures` field is not skipped and draws no diagnostic: the
loader returns it, sorted in among the well-formed records; (3) a
valid-JSON record missing `start_time` makes the sort raise — a diagnostic
is shown, yet the record is still included and the list is unsorted. -/
theorem loader_drops_records_counterexample :
    (load_history_sessions [.record demoJson1, .invalid, .record demoJson2]
        = ([demoJson1], true) ∧
      demoJson2 ∉ (load_history_sessions
        [.record demoJson1, .invalid, .record demoJson2]).1) ∧
      (load_history_sessions [.record demoJson1, .record demoNoCaptures]
        = ([demoNoCaptures, demoJson1], false) ∧
        demoNoCaptures ∈ (load_history_sessions
          [.record demoJson1, .record demoNoCaptures]).1) ∧
      load_history_sessions [.record demoJson2, .record demoNoStart, .record demoJson1]
        = ([demoJson2, demoNoStart, demoJson1], true) := by
  refine ⟨⟨?_, ?_⟩, ⟨?_, ?_⟩, ?_⟩ <;> decide

theorem loadLoop_eq (files : List FileJson) :
    ∀ acc, loadLoop files acc =
      if files.all (fun f => f.parsedRecord.isSome)
      then sortHistoryStep (acc ++ files.filterMap FileJson.parsedRecord)
      else (acc ++ (files.takeWhile (fun f => f.parsedRecord.isSome)).filterMap
        FileJson.parsedRecord, true) := by
  induction files with
  | nil => intro acc; simp [loadLoop]
  | cons f fs ih =>
      intro acc
      cases f with
      | record r =>
          rw [loadLoop, ih (acc ++ [r])]
          by_cases hall : fs.all (fun f => f.parsedRecord.isSome)
          · simp [hall, FileJson.parsedRecord, List.append_assoc]
          · simp [hall, FileJson.parsedRecord, List.append_assoc]
      | invalid =>
          simp [loadLoop, List.all_cons, List.takeWhile_cons, FileJson.parsedRecord]

/-- C2 amended — Loader robustness as implemented, by malformed category:
the loader never propagates an exception, but it does not skip the
malformed records.  A record on which `json.load` raises (invalid JSON)
triggers one diagnostic and aborts the loading loop: exactly the records
parsed before it are returned, unsorted, and every later record —
well-formed or not — is dropped.  A valid-JSON record missing required
fields is not skipped and draws no diagnostic: it is appended like any
other record, so when no file is invalid JSON the loader returns every
parsed record, malformed ones included — stably sorted by `start_time`
descending when each record has a `start_time`, and in file order with a
diagnostic when some record lacks `start_time` (the key pass of the sort
raises before any reordering). -/
theorem loader_behavior_by_malformed_kind (files : List FileJson) :
    load_history_sessions files =
      if files.all (fun f => f.parsedRecord.isSome) then
        (if (files.filterMap FileJson.parsedRecord).all (fun r => r.start_time.isSome)
         then (sortJsonByStartDesc (files.filterMap FileJson.parsedRecord), false)
         else (files.filterMap FileJson.parsedRecord, true))
      else
        ((files.takeWhile (fun f => f.parsedRecord.isSome)).filterMap
          FileJson.parsedRecord, true) := by
  unfold load_history_sessions
  rw [loadLoop_eq files []]
  simp [sortHistoryStep]

/-! ### `stop_capture` / `save_current_session`: persistence at session stop -/

/-- The relevant state of `ScreenCaptureTool`: whether a capture session is
armed, the current session id (`None` before any start), the current session
dictionary, and the record files of the sessions directory as an association
list from file-name stem (the session id) to record. -/
structure AppState where
  is_capturing : Bool
  current_session_id : Option String
  current_session : Session
  store : List (String × Session)

/-- `save_session`: writes `{session['id']}.json`, overwriting an existing
record file with that stem and creating it otherwise. -/
def storePut (store : List (String × Session)) (id : String) (s : Session) :
    List (String × Session) :=
  if store.any (fun e => e.1 == id) then
    store.map (fun e => if e.1 == id then (id, s) else e)
  else store ++ [(id, s)]

def save_session_store (store : List (String × Session)) (s : Session) :
    List (String × Session) :=
  storePut store s.id s

/-- `save_current_session`: saves whenever both `current_session_id` and
`current_session` are truthy (the session dictionary always has its seven
keys, hence is always truthy). -/
def save_current_session (st : AppState) : AppState :=
  match st.current_session_id with
  | some sid =>
      if sid ≠ "" then { st with store := save_session_store st.store st.current_session }
      else st
  | none => st

/-- `stop_capture` at timestamp `now` with computed duration `dur`: a no-op
when idle; otherwise stamps `end_time` and `duration` into the current
session and calls `save_current_session` — with no test on `captures`. -/
def stop_capture (now : String) (dur : Nat) (st : AppState) : AppState :=
  if st.is_capturing then
    save_current_session
      { st with
          is_capturing := false
          current_session := { st.current_session with end_time := now, duration := dur } }
  else st

/-- The ids visible in `load_all` over a store whose records all parse:
every record, sorted by `start_time` descending. -/
def load_all_ids (store : List (String × Session)) : List String :=
  (sortByStartTimeDesc (store.map Prod.snd)).map Session.id

def emptyDemoState : AppState :=
  { is_capturing := true
    current_session_id := some "sid-1"
    current_session := ⟨"sid-1", "Demo", "", "2025-01-01 10:00:00", "", 0, []⟩
    store := [] }

/-- Counterexample for C1: stopping an armed session with zero captures
does write a record — afterwards the store has a record file for the
session's id and `load_all` does contain that id. -/
theorem empty_session_persisted_counterexample :
    ((stop_capture "2025-01-01 10:05:00" 300 emptyDemoState).store.map Prod.fst
        = ["sid-1"]) ∧
      "sid-1" ∈ load_all_ids (stop_capture "2025-01-01 10:05:00" 300 emptyDemoState).store := by
  constructor
  · rfl
  · decide

theorem mem_storePut (store : List (String × Session)) (id : String) (s : Session) :
    (id, s) ∈ storePut store id s := by
  unfold storePut
  by_cases h : store.any (fun e => e.1 == id)
  · rw [if_pos h]
    induction store with
    | nil => cases h
    | cons e es ih =>
        simp only [List.map_cons]
        by_cases he : (e.1 == id) = true
        · rw [if_pos he]
          exact List.mem_cons_self _ _
        · rw [if_neg he]
          refine List.mem_cons_of_mem _ (ih ?_)
          simp only [List.any_cons, Bool.or_eq_true] at h
          rcases h with h | h
          · exact absurd h he
          · exact h
  · rw [if_neg h]
    simp

theorem mem_insertByStartDesc (a s : Session) (l : List Session) :
    a ∈ insertByStartDesc s l ↔ a = s ∨ a ∈ l := by
  induction l with
  | nil => simp [insertByStartDesc]
  | cons b bs ih =>
      unfold insertByStartDesc
      by_cases hb : b.start_time < s.start_time
      · simp [hb]
      · simp [hb, ih]
        tauto

theorem mem_sortByStartTimeDesc (a : Session) (l : List Session) (ha : a ∈ l) :
    a ∈ sortByStartTimeDesc l := by
  unfold sortByStartTimeDesc
  suffices h : ∀ acc, a ∈ acc ∨ a ∈ l → a ∈ l.foldl (fun acc s => insertByStartDesc s acc) acc from
    h [] (Or.inr ha)
  clear ha
  induction l with
  | nil => intro acc h; simpa using h
  | cons x xs ih =>
      intro acc h
      simp only [List.foldl_cons]
      refine ih (insertByStartDesc x acc) ?_
      rcases h with h | h
      · exact Or.inl ((mem_insertByStartDesc a x acc).mpr (Or.inr h))
      · rcases List.mem_cons.mp h with h | h
        · exact Or.inl ((mem_insertByStartDesc a x acc).mpr (Or.inl h))
        · exact Or.inr h

/-- C1 amended — `stop_capture` on an armed session persists the record
unconditionally, captures empty or not: after the stop, the store holds a
record file whose stem is the session's id, containing the session with the
new `end_time` and `duration` (and its unchanged, possibly empty, captures
list), and `load_all` afterwards contains that session id. -/
theorem stop_persists_even_empty_session (st : AppState) (now : String) (dur : Nat)
    (sid : String)
    (harm : st.is_capturing = true)
    (hid : st.current_session_id = some sid) (hne : sid ≠ "") :
    (st.current_session.id,
        { st.current_session with end_time := now, duration := dur }) ∈
        (stop_capture now dur st).store ∧
      st.current_session.id ∈ load_all_ids (stop_capture now dur st).store := by
  have hstore : (stop_capture now dur st).store =
      storePut st.store st.current_session.id
        { st.current_session with end_time := now, duration := dur } := by
    unfold stop_capture
    rw [if_pos harm]
    unfold save_current_session
    simp only [hid]
    rw [if_pos hne]
    rfl
  rw [hstore]
  constructor
  · exact mem_storePut _ _ _
  · unfold load_all_ids
    refine List.mem_map.mpr ⟨{ st.current_session with end_time := now, duration := dur },
      mem_sortByStartTimeDesc _ _ ?_, rfl⟩
    exact List.mem_map.mpr ⟨_, mem_storePut _ _ _, rfl⟩

/-- Witness for the amended C1 at the concrete armed empty session. -/
theorem stop_persists_even_empty_session_witness :
    ("sid-1", ⟨"sid-1", "Demo", "", "2025-01-01 10:00:00", "2025-01-01 10:05:00", 300, []⟩)
        ∈ (stop_capture "2025-01-01 10:05:00" 300 emptyDemoState).store ∧
      "sid-1" ∈ load_all_ids (stop_capture "2025-01-01 10:05:00" 300 emptyDemoState).store :=
  stop_persists_even_empty_session emptyDemoState "2025-01-01 10:05:00" 300 "sid-1"
    rfl rfl (by decide)

/-! ### Annotation compositing (`on_confirm`) and the re-edit save path

PIL images live on an explicit heap of raster values addressed by `Nat`;
`Image.copy` and `Image.crop` allocate fresh addresses, and
`ImageDraw.Draw(draw_image)` draws in place at the address of
`draw_image`.  The PIL rasterizers for lines and text are external
collaborators and are taken as parameters. -/

/-- A raster image: rows of pixel values. -/
def Img : Type := List (List Nat)

/-- The heap of PIL image objects. -/
structure Heap where
  imgs : Nat → Img
  next : Nat

/-- Allocation of a fresh image object holding a given raster value. -/
def heapAlloc (h : Heap) (img : Img) : Heap × Nat :=
  ({ imgs := fun a => if a = h.next then img else h.imgs a, next := h.next + 1 }, h.next)

/-- In-place mutation of the image object at an address (a draw call). -/
def heapSet (h : Heap) (a : Nat) (img : Img) : Heap :=
  { imgs := fun b => if b = a then img else h.imgs b, next := h.next }

/-- `Image.crop((x1, y1, x2, y2))` on the raster value: the sub-rectangle. -/
def cropImg (img : Img) (r : CropRegion) : Img :=
  ((img.drop r.y1.toNat).take ((r.y2 - r.y1).toNat)).map
    (fun row => (row.drop r.x1.toNat).take ((r.x2 - r.x1).toNat))

/-- One entry of `annotation_paths`: `(points, color, width)`. -/
structure StrokePath where
  points : List (Int × Int)
  color : String
  width : Nat

/-- One entry of `text_annotations`: `(x, y, text, color, font_size)`. -/
structure TextLabel where
  x : Int
  y : Int
  text : String
  color : String
  size : Nat

/-- The drawing loops of `on_confirm` as a pure transformation of the
raster value being drawn on: under a crop region the stroke points are
clipped and translated (`croppedStrokeSegments`) and a text label is kept
only when its anchor lies in the region, translated by `(-x1, -y1)`;
without a region everything is drawn at its original coordinates.
`dSeg` and `dText` are the external PIL rasterizers `draw.line` and
`draw.text`. -/
def renderAll (dSeg : Img → (Int × Int) × (Int × Int) → String → Nat → Img)
    (dText : Img → Int × Int → String → String → Nat → Img)
    (region : Option CropRegion) (paths : List StrokePath) (labels : List TextLabel)
    (img : Img) : Img :=
  match region with
  | some r =>
      let afterPaths := paths.foldl
        (fun acc sp =>
          (croppedStrokeSegments r sp.points).foldl
            (fun a seg => dSeg a seg sp.color sp.width) acc) img
      labels.foldl
        (fun acc tl =>
          if inRegion r (tl.x, tl.y) then
            dText acc (tl.x - r.x1, tl.y - r.y1) tl.text tl.color tl.size
          else acc) afterPaths
  | none =>
      let afterPaths := paths.foldl
        (fun acc sp =>
          (strokeSegments sp.points).foldl
            (fun a seg => dSeg a seg sp.color sp.width) acc) img
      labels.foldl (fun acc tl => dText acc (tl.x, tl.y) tl.text tl.color tl.size) afterPaths

/-- `on_confirm` on the image heap: `final_image` is `crop` of the base
under a region and `copy` of the base otherwise (both fresh objects); when
there is at least one stroke path or text label, a further copy
`draw_image` is allocated and drawn on in place, and becomes the result. -/
def on_confirm_heap (dSeg : Img → (Int × Int) × (Int × Int) → String → Nat → Img)
    (dText : Img → Int × Int → String → String → Nat → Img)
    (h : Heap) (baseAddr : Nat) (region : Option CropRegion)
    (paths : List StrokePath) (labels : List TextLabel) : Heap × Nat :=
  let base := h.imgs baseAddr
  let fa := match region with
    | some r => heapAlloc h (cropImg base r)
    | none => heapAlloc h base
  if paths.isEmpty && labels.isEmpty then fa
  else
    let wa := heapAlloc fa.1 (fa.1.imgs fa.2)
    (heapSet wa.1 wa.2 (renderAll dSeg dText region paths labels (wa.1.imgs wa.2)), wa.2)

/-- The capture files on disk, and the re-edit save of `preview_screenshot`:
when the preview returns `None` (cancel) nothing is written; when it
returns an updated image, exactly the original capture's path is
overwritten with it. -/
def preview_reedit_store (fileStore : String → Option Img) (path : String)
    (result : Option (Img × String)) : String → Option Img :=
  match result with
  | none => fileStore
  | some (img, _) => fun p => if p = path then some img else fileStore p

/-- C8 — Compositing identity and freshness: (1) with no crop region and no
stroke paths or text labels, `on_confirm` returns an image pixel-identical
to the base image; (2) for every input the result is a fresh object
distinct from the base image, and the base image's pixels are never
mutated by compositing; (3) the stored capture file changes only when the
re-edit path of `preview_screenshot` explicitly saves a returned result,
and then exactly at the original capture's path. -/
theorem compositing_identity_and_freshness :
    (∀ dSeg dText (h : Heap) (baseAddr : Nat),
        ((on_confirm_heap dSeg dText h baseAddr none [] []).1).imgs
            (on_confirm_heap dSeg dText h baseAddr none [] []).2 =
          h.imgs baseAddr) ∧
      (∀ dSeg dText (h : Heap) (baseAddr : Nat) (region : Option CropRegion)
          (paths : List StrokePath) (labels : List TextLabel),
        baseAddr < h.next →
          ((on_confirm_heap dSeg dText h baseAddr region paths labels).1).imgs baseAddr =
              h.imgs baseAddr ∧
            (on_confirm_heap dSeg dText h baseAddr region paths labels).2 ≠ baseAddr) ∧
      (∀ (fileStore : String → Option Img) (path : String),
        preview_reedit_store fileStore path none = fileStore ∧
          ∀ (img : Img) (d : String),
            preview_reedit_store fileStore path (some (img, d)) path = some img ∧
              ∀ p, p ≠ path →
                preview_reedit_store fileStore path (some (img, d)) p = fileStore p) := by
  refine ⟨?_, ?_, ?_⟩
  · intro dSeg dText h baseAddr
    simp [on_confirm_heap, heapAlloc]
  · intro dSeg dText h baseAddr region paths labels hlt
    have hne : baseAddr ≠ h.next := Nat.ne_of_lt hlt
    have hne1 : baseAddr ≠ h.next + 1 := by omega
    have hne' : ¬h.next = baseAddr := by omega
    have hne1' : ¬h.next + 1 = baseAddr := by omega
    unfold on_confirm_heap
    cases region with
    | none =>
        by_cases hpl : paths.isEmpty && labels.isEmpty
        · simp [hpl, heapAlloc, hne, hne']
        · simp [hpl, heapAlloc, heapSet, hne, hne1, hne', hne1']
    | some r =>
        by_cases hpl : paths.isEmpty && labels.isEmpty
        · simp [hpl, heapAlloc, hne, hne']
        · simp [hpl, heapAlloc, heapSet, hne, hne1, hne', hne1']
  · intro fileStore path
    refine ⟨rfl, fun img d => ⟨by simp [preview_reedit_store], fun p hp => ?_⟩⟩
    simp [preview_reedit_store, hp]

/-- Witness for C8 at a concrete input: identity rasterizers, a two-pixel
base image at address `0` of a one-object heap, one stroke path; the base
image is untouched and the result is a different object. -/
theorem compositing_identity_and_freshness_witness :
    ((on_confirm_heap (fun i _ _ _ => i) (fun i _ _ _ _ => i)
            ⟨fun _ => [[1, 2], [3, 4]], 1⟩ 0 none [⟨[(0, 0), (1, 1)], "red", 2⟩] []).1).imgs 0 =
        (⟨fun _ => [[1, 2], [3, 4]], 1⟩ : Heap).imgs 0 ∧
      (on_confirm_heap (fun i _ _ _ => i) (fun i _ _ _ _ => i)
          ⟨fun _ => [[1, 2], [3, 4]], 1⟩ 0 none [⟨[(0, 0), (1, 1)], "red", 2⟩] []).2 ≠ 0 :=
  compositing_identity_and_freshness.2.1 (fun i _ _ _ => i) (fun i _ _ _ _ => i)
    ⟨fun _ => [[1, 2], [3, 4]], 1⟩ 0 none [⟨[(0, 0), (1, 1)], "red", 2⟩] []
    (by decide)
